import Mathlib

/-!
Verification of the contact/note assistant in `src/main.py`.

The data model and the operations are embedded shallowly:
* `Phone` values are plain strings, `Phone.is_valid_phone` becomes `is_valid_phone`;
* `Birthday` parsing (`datetime.strptime(value, "%d.%m.%Y").date()`) becomes
  `parse_birthday`, returning `none` where Python raises `ValueError`;
* `Record` becomes `PRecord` with explicit phone-list state; operations that may
  raise return the post-exception state paired with an optional error, so the
  state left behind by a failed operation is observable;
* `AddressBook` and `NoteBook` (Python dicts) become insertion-ordered
  association lists with Python's dict semantics: assignment updates an existing
  key in place, otherwise appends; deletion removes the key.

A `Note`'s wall-clock creation timestamp is omitted: no operation modelled here
consults it.
-/

namespace Assistant

/-- Bases of the ten-codepoint runs of Unicode decimal digits (category `Nd`):
ASCII, Arabic-Indic, Extended Arabic-Indic, Devanagari, Bengali, Gurmukhi,
Gujarati, Oriya, Tamil, Telugu, Kannada, Malayalam, Thai, Lao, Tibetan,
Myanmar, Khmer, Mongolian, Fullwidth.  Each run `b .. b+9` denotes the digits
`0 .. 9`.  Python's `re` pattern `\d` (used without `re.ASCII` in
`src/main.py`) matches category `Nd`; this table lists its principal runs and
is exact on them (in particular on all ASCII input). -/
def ndRangeBases : List Nat :=
  [0x30, 0x660, 0x6F0, 0x966, 0x9E6, 0xA66, 0xAE6, 0xB66, 0xBE6, 0xC66,
   0xCE6, 0xD66, 0xE50, 0xED0, 0xF20, 0x1040, 0x17E0, 0x1810, 0xFF10]

/-- `c` matches Python's regex class `\d` (a Unicode decimal digit). -/
def isPyDigit (c : Char) : Bool :=
  (ndRangeBases.find? (fun b => decide (b ≤ c.toNat) && decide (c.toNat ≤ b + 9))).isSome

/-- The numeric value of a decimal digit character (as used by Python's
`int()` on the substrings captured by `strptime`). -/
def digitVal (c : Char) : Nat :=
  match ndRangeBases.find? (fun b => decide (b ≤ c.toNat) && decide (c.toNat ≤ b + 9)) with
  | some b => c.toNat - b
  | none => 0

/-- Matcher for `\d{n}`: consume exactly `n` digit characters, return the rest. -/
def matchDigits : Nat → List Char → Option (List Char)
  | 0, rest => some rest
  | _ + 1, [] => none
  | n + 1, c :: rest => if isPyDigit c then matchDigits n rest else none

/-- `Phone.is_valid_phone` (src/main.py:27-29):
`re.fullmatch(r"\d{10}", phone) is not None`. -/
def is_valid_phone (s : String) : Bool :=
  match matchDigits 10 s.data with
  | some [] => true
  | _ => false

/-- Errors raised by the operations of src/main.py (all are Python
`ValueError`/`KeyError`; only the identity of the failure matters here). -/
inductive PErr where
  | invalidPhoneFormat
  | phoneNotFound
  | noteNotFound
deriving DecidableEq

/-- A Python `datetime.date` as a raw year/month/day triple. -/
structure PyDate where
  year : Nat
  month : Nat
  day : Nat
deriving DecidableEq

/-- Python's leap-year rule (`calendar.isleap`): divisible by 4 and not by 100
unless by 400. -/
def isLeapB (y : Nat) : Bool :=
  y % 4 == 0 && (y % 100 != 0 || y % 400 == 0)

/-- Length of month `m` (1-12) in a (non-)leap year; 0 for out-of-range `m`. -/
def daysInMonthB (leap : Bool) : Nat → Nat
  | 1 => 31
  | 2 => if leap then 29 else 28
  | 3 => 31
  | 4 => 30
  | 5 => 31
  | 6 => 30
  | 7 => 31
  | 8 => 31
  | 9 => 30
  | 10 => 31
  | 11 => 30
  | 12 => 31
  | _ => 0

/-- Days in the months strictly before month `m`. -/
def daysBeforeMonthB (leap : Bool) : Nat → Nat
  | 0 => 0
  | m + 1 => daysBeforeMonthB leap m + daysInMonthB leap m

/-- Days in the proleptic Gregorian years `1 .. z`:
`365*z + z/4 - z/100 + z/400`, written with the subtraction last so that the
natural-number subtraction never truncates (`z/4 ≥ z/100`). -/
def cumulativeDays (z : Nat) : Nat :=
  365 * z + z / 4 + z / 400 - z / 100

/-- Python's `date.toordinal()`: day count since 0001-01-01 (that date maps
to 1). -/
def toOrdinal (d : PyDate) : Nat :=
  cumulativeDays (d.year - 1) + daysBeforeMonthB (isLeapB d.year) d.month + d.day

/-- The validity check performed by the `datetime.date` constructor:
`MINYEAR ≤ year ≤ MAXYEAR`, `1 ≤ month ≤ 12`, `1 ≤ day ≤ days_in_month`. -/
def validB (d : PyDate) : Bool :=
  decide (1 ≤ d.year ∧ d.year ≤ 9999 ∧ 1 ≤ d.month ∧ d.month ≤ 12 ∧
    1 ≤ d.day ∧ d.day ≤ daysInMonthB (isLeapB d.year) d.month)

/-- `datetime.date(y, m, d)`: `none` models the `ValueError` raised on an
invalid combination (this is also what `date.replace(year=...)` calls). -/
def mkDate (y m d : Nat) : Option PyDate :=
  if validB ⟨y, m, d⟩ then some ⟨y, m, d⟩ else none

/-- Python `date` comparison: lexicographic on (year, month, day). -/
def ltDate (a b : PyDate) : Bool :=
  decide (a.year < b.year ∨ (a.year = b.year ∧
    (a.month < b.month ∨ (a.month = b.month ∧ a.day < b.day))))

/-- `(a - b).days` for Python dates: difference of ordinals. -/
def deltaDays (a b : PyDate) : Int :=
  (toOrdinal a : Int) - (toOrdinal b : Int)

/-- Split a character list at every `'.'` (the literal separators of the
`"%d.%m.%Y"` format). -/
def splitDots : List Char → List (List Char)
  | [] => [[]]
  | c :: rest =>
    match splitDots rest with
    | [] => [[]]
    | g :: gs => if c = '.' then [] :: g :: gs else (c :: g) :: gs

/-- Inverse of `splitDots`: re-insert the dots. -/
def joinDots : List (List Char) → List Char
  | [] => []
  | [g] => g
  | g :: gs => g ++ '.' :: joinDots gs

/-- The day field of `strptime`'s `%d` directive, whose regex is
`3[01]|[12]\d|0[1-9]|[1-9]` (one or two characters; the second character of
the `[12]\d` branch may be any Unicode digit).  Character-code bounds
`49 ≤ c.toNat ≤ 57` transcribe the class `[1-9]`, `48` is `'0'`. -/
def dayFieldVal : List Char → Option Nat
  | [c] => if 49 ≤ c.toNat ∧ c.toNat ≤ 57 then some (digitVal c) else none
  | [c0, c1] =>
    if c0 = '3' ∧ (c1 = '0' ∨ c1 = '1') then some (30 + digitVal c1)
    else if (c0 = '1' ∨ c0 = '2') ∧ isPyDigit c1 = true then
      some (10 * digitVal c0 + digitVal c1)
    else if c0 = '0' ∧ 49 ≤ c1.toNat ∧ c1.toNat ≤ 57 then some (digitVal c1)
    else none
  | _ => none

/-- The month field of `strptime`'s `%m` directive, regex `1[0-2]|0[1-9]|[1-9]`. -/
def monthFieldVal : List Char → Option Nat
  | [c] => if 49 ≤ c.toNat ∧ c.toNat ≤ 57 then some (digitVal c) else none
  | [c0, c1] =>
    if c0 = '1' ∧ (48 ≤ c1.toNat ∧ c1.toNat ≤ 50) then some (10 + digitVal c1)
    else if c0 = '0' ∧ 49 ≤ c1.toNat ∧ c1.toNat ≤ 57 then some (digitVal c1)
    else none
  | _ => none

/-- Decimal value of a digit string, as computed by Python's `int()`. -/
def natOfDigits (cs : List Char) : Nat :=
  cs.foldl (fun a c => 10 * a + digitVal c) 0

/-- The year field of `strptime`'s `%Y` directive, regex `\d\d\d\d`
(exactly four Unicode digits). -/
def yearFieldVal (cs : List Char) : Option Nat :=
  if cs.length = 4 ∧ cs.all isPyDigit = true then some (natOfDigits cs) else none

/-- `Birthday.__init__` (src/main.py:32-37):
`datetime.strptime(value, "%d.%m.%Y").date()`, with `none` modelling the
`ValueError` re-raised as "Invalid date format".  `strptime` anchors its regex
at both ends, so the input must be exactly day-field, dot, month-field, dot,
year-field, and the resulting triple must be accepted by the `date`
constructor. -/
def parse_birthday (s : String) : Option PyDate :=
  match splitDots s.data with
  | [df, mf, yf] =>
    match dayFieldVal df, monthFieldVal mf, yearFieldVal yf with
    | some d, some m, some y => mkDate y m d
    | _, _, _ => none
  | _ => none

/-- First element equal to `v` (the scan inside `Record.find_phone`). -/
def findFirst : List String → String → Option String
  | [], _ => none
  | p :: rest, v => if p = v then some p else findFirst rest v

/-- Remove the first element equal to `v`; `none` when absent
(the scan inside `Record.remove_phone`). -/
def removeFirst : List String → String → Option (List String)
  | [], _ => none
  | p :: rest, v => if p = v then some rest else (removeFirst rest v).map (p :: ·)

/-- Overwrite the first element equal to `old` with `new`; `none` when absent
(the scan-and-assign loop inside `Record.edit_phone`). -/
def replaceFirst : List String → String → String → Option (List String)
  | [], _, _ => none
  | p :: rest, old, new =>
    if p = old then some (new :: rest) else (replaceFirst rest old new).map (p :: ·)

/-- `Record` (src/main.py:43-89): name, ordered phone list, optional birthday. -/
structure PRecord where
  name : String
  phones : List String
  birthday : Option PyDate
deriving DecidableEq

/-- `Record.add_phone` (src/main.py:49-50): `Phone(phone)` validates before
anything is appended, so on failure the list is untouched. -/
def addPhoneRec (r : PRecord) (v : String) : PRecord × Option PErr :=
  if is_valid_phone v then ({ r with phones := r.phones ++ [v] }, none)
  else (r, some .invalidPhoneFormat)

/-- `Record.remove_phone` (src/main.py:52-57). -/
def removePhoneRec (r : PRecord) (v : String) : PRecord × Option PErr :=
  match removeFirst r.phones v with
  | some l => ({ r with phones := l }, none)
  | none => (r, some .phoneNotFound)

/-- `Record.edit_phone` (src/main.py:59-69): assign `new` over the first
occurrence of `old`, raise `PhoneNotFound` if there was none, and only then
validate `new` — so an invalid `new` is left in place when the format error
fires. -/
def editPhoneRec (r : PRecord) (old new : String) : PRecord × Option PErr :=
  match replaceFirst r.phones old new with
  | none => (r, some .phoneNotFound)
  | some l =>
    if is_valid_phone new then ({ r with phones := l }, none)
    else ({ r with phones := l }, some .invalidPhoneFormat)

/-- `Record.find_phone` (src/main.py:71-75). -/
def findPhoneRec (r : PRecord) (v : String) : Option String :=
  findFirst r.phones v

/-- Python-dict assignment on an insertion-ordered association list: an
existing key keeps its position and gets the new value, a new key is appended. -/
def dictSet {κ α : Type} [DecidableEq κ] : List (κ × α) → κ → α → List (κ × α)
  | [], k, v => [(k, v)]
  | (k', v') :: rest, k, v =>
    if k' = k then (k, v) :: rest else (k', v') :: dictSet rest k v

/-- Python-dict lookup (`dict.get`). -/
def dictFind {κ α : Type} [DecidableEq κ] : List (κ × α) → κ → Option α
  | [], _ => none
  | (k', v') :: rest, k => if k' = k then some v' else dictFind rest k

/-- Python-dict key-membership test (`k in d`). -/
def dictHasKey {κ α : Type} [DecidableEq κ] (l : List (κ × α)) (k : κ) : Bool :=
  l.any (fun p => decide (p.1 = k))

/-- Python-dict deletion (`del d[k]`); keys are unique, so removing the first
matching entry removes the key. -/
def dictErase {κ α : Type} [DecidableEq κ] : List (κ × α) → κ → List (κ × α)
  | [], _ => []
  | (k', v') :: rest, k => if k' = k then rest else (k', v') :: dictErase rest k

/-- `AddressBook` (src/main.py:92-147): dict from contact name to record. -/
abbrev AddressBook := List (String × PRecord)

/-- A `Note` (src/main.py:339-365): text plus ordered tag list.  The
`creation_date` field is wall-clock state never consulted by the operations
modelled here and is omitted. -/
structure Note where
  text : String
  tags : List String
deriving DecidableEq

/-- `NoteBook` (src/main.py:368-392): dict from integer id to note. -/
abbrev NoteBook := List (Nat × Note)

/-- `NoteBook.add_note` (src/main.py:369-370):
`self.data[len(self.data) + 1] = note`. -/
def addNote (nb : NoteBook) (n : Note) : NoteBook :=
  dictSet nb (nb.length + 1) n

/-- `NoteBook.delete_note` (src/main.py:372-376). -/
def deleteNote (nb : NoteBook) (noteId : Nat) : Except PErr NoteBook :=
  if dictHasKey nb noteId then .ok (dictErase nb noteId) else .error .noteNotFound

/-- The inner tag scan of `NoteBook.find_by_tag` (the `for t ... break` loop). -/
def hasTag : List String → String → Bool
  | [], _ => false
  | t :: ts, tag => if t = tag then true else hasTag ts tag

/-- `NoteBook.find_by_tag` (src/main.py:378-385): walk the notes in insertion
order, appending each note whose tag list contains `tag`, once per note. -/
def findByTag (nb : NoteBook) (tag : String) : List Note :=
  match nb with
  | [] => []
  | (_, n) :: rest =>
    if hasTag n.tags tag then n :: findByTag rest tag else findByTag rest tag

/-- The loop body of `AddressBook.get_upcoming_birthdays` (src/main.py:128-140)
over the records in insertion order.  `none` models the uncaught `ValueError`
raised by `birthday.replace(year=...)` when the month/day does not exist in the
target year (February 29 in a non-leap year). -/
def upcomingLoop : List PRecord → PyDate → Int → Option (List (String × PyDate))
  | [], _, _ => some []
  | r :: rest, today, days =>
    match r.birthday with
    | none => upcomingLoop rest today days
    | some b =>
      match mkDate today.year b.month b.day with
      | none => none
      | some ty =>
        match (if ltDate ty today then mkDate (today.year + 1) b.month b.day else some ty) with
        | none => none
        | some bd =>
          match upcomingLoop rest today days with
          | none => none
          | some tail =>
            if deltaDays bd today < days then some ((r.name, bd) :: tail) else some tail

/-- `AddressBook.get_upcoming_birthdays` (src/main.py:128-140), with `today`
passed explicitly in place of `datetime.now().date()` and the computed dates
returned as date values (the source renders them with `strftime("%d.%m.%Y")`). -/
def getUpcomingBirthdays (book : AddressBook) (today : PyDate) (days : Int) :
    Option (List (String × PyDate)) :=
  upcomingLoop (book.map Prod.snd) today days

/-- `add_contact` (src/main.py:186-200): validate the phone, then append it to
an existing record of that name, or create and insert a fresh record. -/
def addContact (args : List String) (book : AddressBook) : AddressBook × String :=
  match args with
  | name :: phone :: _ =>
    if is_valid_phone phone = true then
      match dictFind book name with
      | some r =>
        match addPhoneRec r phone with
        | (r2, none) => (dictSet book name r2, "Contact added.")
        | (_, some _) => (book, "Invalid phone number format. It should be 10 digits.")
      | none =>
        match addPhoneRec ⟨name, [], none⟩ phone with
        | (r2, none) => (dictSet book name r2, "Contact added.")
        | (_, some _) => (book, "Invalid phone number format. It should be 10 digits.")
    else (book, "Invalid phone number format. It should be 10 digits.")
  | _ => (book, "Give me name and phone please.")

/-- The strict reading of the birthday pattern: exactly two-digit day,
two-digit month, four-digit year, ASCII digits, dot-separated. -/
def strictDDMMYYYY (s : String) : Bool :=
  match s.data with
  | [d1, d2, c1, m1, m2, c2, y1, y2, y3, y4] =>
    c1 = '.' && c2 = '.' && [d1, d2, m1, m2, y1, y2, y3, y4].all Char.isDigit
  | _ => false

/-- The adjusted date the birthday loop computes: the birthday in today's
year, rolled to the next year when it has already passed. -/
def adjustedDate (today b : PyDate) : PyDate :=
  if ltDate ⟨today.year, b.month, b.day⟩ today then ⟨today.year + 1, b.month, b.day⟩
  else ⟨today.year, b.month, b.day⟩

/-- Membership rule of the birthday window: day delta from today in
`[0, days)`. -/
def keepB (today : PyDate) (days : Int) (b : PyDate) : Bool :=
  decide (0 ≤ deltaDays (adjustedDate today b) today ∧
    deltaDays (adjustedDate today b) today < days)

/-- A record's birthday (if any) is a valid date whose month/day combination
exists both in today's year and in the next one — the premise under which
`date.replace` cannot raise inside the birthday loop. -/
def birthdayOK (today : PyDate) (r : PRecord) : Bool :=
  match r.birthday with
  | none => true
  | some b =>
    validB b && decide (b.day ≤ daysInMonthB (isLeapB today.year) b.month) &&
      decide (b.day ≤ daysInMonthB (isLeapB (today.year + 1)) b.month)

/-- The contribution of one record to the birthday-window result: skipped
when it has no birthday, included with its adjusted date exactly when the
delta rule keeps it. -/
def upcomingEntry (today : PyDate) (days : Int) (r : PRecord) :
    Option (String × PyDate) :=
  match r.birthday with
  | none => none
  | some b => if keepB today days b then some (r.name, adjustedDate today b) else none

/-! Concrete data used by the witness and counterexample theorems. -/

def noteA : Note := ⟨"first note", []⟩

def noteB : Note := ⟨"second note", []⟩

def noteC : Note := ⟨"third note", []⟩

def noteD : Note := ⟨"fourth note", []⟩

/-- The notebook after three `add_note` calls on an empty `NoteBook`. -/
def nb3 : NoteBook := addNote (addNote (addNote [] noteA) noteB) noteC

/-- The notebook `{1, 3}` left after `delete_note(2)`. -/
def nb13 : NoteBook := [(1, noteA), (3, noteC)]

def recDup : PRecord := ⟨"Ann", ["0123456789"], none⟩

def recEdit : PRecord := ⟨"Ann", ["0123456789", "1112223334"], none⟩

def recNew : PRecord := ⟨"New", [], none⟩

def recBob : PRecord := ⟨"Bob", ["0000000000"], none⟩

def bookBob : AddressBook := [("Bob", recBob)]

/-- A record whose birthday is February 29 of a leap year. -/
def recFeb : PRecord := ⟨"Feb", [], some ⟨2000, 2, 29⟩⟩

/-- A record with birthday 15.06.1990 (the spec example). -/
def recJune : PRecord := ⟨"X", [], some ⟨1990, 6, 15⟩⟩

def bookJune : AddressBook := [("X", recJune)]

/-- Ten consecutive non-ASCII Unicode decimal digits (Arabic-Indic 0-9). -/
def arabicTen : String := "٠١٢٣٤٥٦٧٨٩"

/-! ## Association-list (Python dict) lemmas -/

theorem dictFind_dictSet_self {κ α : Type} [DecidableEq κ]
    (l : List (κ × α)) (k : κ) (v : α) : dictFind (dictSet l k v) k = some v := by
  induction l with
  | nil => simp [dictSet, dictFind]
  | cons p rest ih =>
    obtain ⟨k', v'⟩ := p
    by_cases h : k' = k
    · simp [dictSet, dictFind, h]
    · simp [dictSet, dictFind, h, ih]

theorem dictFind_dictSet_ne {κ α : Type} [DecidableEq κ]
    (l : List (κ × α)) (k k2 : κ) (v : α) (h : k2 ≠ k) :
    dictFind (dictSet l k v) k2 = dictFind l k2 := by
  induction l with
  | nil =>
    simp [dictSet, dictFind]
    exact fun hc => h hc.symm
  | cons p rest ih =>
    obtain ⟨k', v'⟩ := p
    by_cases hk : k' = k
    · subst hk
      have hne : ¬k' = k2 := fun hc => h hc.symm
      simp [dictSet, dictFind, hne]
    · simp [dictSet, dictFind, hk, ih]

theorem dictSet_map_fst_of_find {κ α : Type} [DecidableEq κ]
    (l : List (κ × α)) (k : κ) (v w : α) (h : dictFind l k = some w) :
    (dictSet l k v).map Prod.fst = l.map Prod.fst := by
  induction l with
  | nil => simp [dictFind] at h
  | cons p rest ih =>
    obtain ⟨k', v'⟩ := p
    by_cases hk : k' = k
    · simp [dictSet, hk]
    · simp [dictFind, hk] at h
      simp [dictSet, hk, ih h]

/-! ## Phone-list scan lemmas -/

theorem findFirst_eq_some (l : List String) (v : String) (h : v ∈ l) :
    findFirst l v = some v := by
  induction l with
  | nil => cases h
  | cons p rest ih =>
    by_cases hp : p = v
    · simp [findFirst, hp]
    · rcases List.mem_cons.mp h with h1 | h2
      · exact absurd h1.symm hp
      · simp [findFirst, hp, ih h2]

theorem findFirst_eq_none (l : List String) (v : String) (h : v ∉ l) :
    findFirst l v = none := by
  induction l with
  | nil => rfl
  | cons p rest ih =>
    have hp : p ≠ v := fun hc => h (hc ▸ List.mem_cons_self p rest)
    have hr : v ∉ rest := fun hc => h (List.mem_cons_of_mem p hc)
    simp [findFirst, hp, ih hr]

theorem removeFirst_append (l : List String) (v : String) (h : v ∉ l) :
    removeFirst (l ++ [v]) v = some l := by
  induction l with
  | nil => simp [removeFirst]
  | cons p rest ih =>
    have hp : p ≠ v := fun hc => h (hc ▸ List.mem_cons_self p rest)
    have hr : v ∉ rest := fun hc => h (List.mem_cons_of_mem p hc)
    simp [removeFirst, hp, ih hr]

theorem replaceFirst_eq_none (l : List String) (old new : String) (h : old ∉ l) :
    replaceFirst l old new = none := by
  induction l with
  | nil => rfl
  | cons p rest ih =>
    have hp : p ≠ old := fun hc => h (hc ▸ List.mem_cons_self p rest)
    have hr : old ∉ rest := fun hc => h (List.mem_cons_of_mem p hc)
    simp [replaceFirst, hp, ih hr]

theorem replaceFirst_spec (l : List String) (old new : String) (h : old ∈ l) :
    ∃ i, l[i]? = some old ∧ old ∉ l.take i ∧
      replaceFirst l old new = some (l.set i new) := by
  induction l with
  | nil => cases h
  | cons p rest ih =>
    by_cases hp : p = old
    · exact ⟨0, by simp [hp], by simp, by simp [replaceFirst, hp]⟩
    · rcases List.mem_cons.mp h with h1 | h2
      · exact absurd h1.symm hp
      · obtain ⟨i, h1', h2', h3'⟩ := ih h2
        refine ⟨i + 1, by simpa using h1', ?_, ?_⟩
        · intro hc
          rcases List.mem_cons.mp (by simpa using hc) with hc1 | hc2
          · exact hp hc1.symm
          · exact h2' hc2
        · simp [replaceFirst, hp, h3']

/-! ## Digit-matcher lemmas -/

theorem matchDigits_eq_iff (n : Nat) (cs : List Char) :
    matchDigits n cs = some [] ↔ cs.length = n ∧ cs.all isPyDigit = true := by
  induction n generalizing cs with
  | zero => cases cs <;> simp [matchDigits]
  | succ n ih =>
    cases cs with
    | nil => simp [matchDigits]
    | cons c rest =>
      by_cases h : isPyDigit c
      · simp [matchDigits, h, ih]
      · simp [matchDigits, h]

theorem is_valid_phone_iff (s : String) :
    is_valid_phone s = true ↔ s.data.length = 10 ∧ s.data.all isPyDigit = true := by
  rw [← matchDigits_eq_iff]
  unfold is_valid_phone
  cases h : matchDigits 10 s.data with
  | none => simp
  | some l => cases l <;> simp

/-! ## Tag-search lemmas -/

theorem hasTag_iff (ts : List String) (tag : String) : hasTag ts tag = true ↔ tag ∈ ts := by
  induction ts with
  | nil => simp [hasTag]
  | cons t ts ih =>
    by_cases h : t = tag
    · simp [hasTag, h]
    · simp [hasTag, h, ih]
      exact fun hc => absurd hc.symm h

/-! ## Claim theorems: phones and records -/

/-- Claim C5, counterexample: a string of ten Arabic-Indic digits contains no
ASCII digit at all, yet `is_valid_phone` accepts it, because Python's `\d`
without `re.ASCII` matches every Unicode decimal digit.  The claim's
"any string containing a non-digit yields false" (with ASCII digits) is
therefore false. -/
theorem isValidPhone_accepts_unicode_digits :
    is_valid_phone arabicTen = true ∧ arabicTen.data.all Char.isDigit = false := by
  constructor <;> rfl

/-- Claim C5, amended: `is_valid_phone s` is true iff `s` consists of exactly
ten Unicode decimal-digit characters (Python's `\d`); on ASCII strings this
coincides with ten ASCII digits. -/
theorem isValidPhone_characterization (s : String) :
    is_valid_phone s = true ↔ s.data.length = 10 ∧ s.data.all isPyDigit = true :=
  is_valid_phone_iff s

/-- Claim C10: `add_phone` with an invalid value raises `InvalidPhoneFormat`
before anything is appended, leaving the phone list unchanged. -/
theorem addPhone_invalid_unchanged (r : PRecord) (v : String)
    (hinv : is_valid_phone v = false) :
    addPhoneRec r v = (r, some PErr.invalidPhoneFormat) := by
  simp [addPhoneRec, hinv]

/-- Claim C10, witness at a concrete record and the invalid value "12". -/
theorem addPhone_invalid_unchanged_witness :
    addPhoneRec recDup "12" = (recDup, some PErr.invalidPhoneFormat) :=
  addPhone_invalid_unchanged recDup "12" (by decide)

/-- Claim C7: `edit_phone` with an absent old value raises `PhoneNotFound`
and leaves the record unchanged. -/
theorem editPhone_missing_old_unchanged (r : PRecord) (old new : String)
    (h : old ∉ r.phones) :
    editPhoneRec r old new = (r, some PErr.phoneNotFound) := by
  simp [editPhoneRec, replaceFirst_eq_none r.phones old new h]

/-- Claim C7, witness: editing a phone that is not in the list. -/
theorem editPhone_missing_old_unchanged_witness :
    editPhoneRec recDup "9999999999" "1234567890" = (recDup, some PErr.phoneNotFound) :=
  editPhone_missing_old_unchanged recDup "9999999999" "1234567890" (by decide)

/-- Claim C2: when `old` is present and `new` is not a valid phone,
`edit_phone` overwrites the first occurrence of `old` with `new` and only then
raises `InvalidPhoneFormat`, so the invalid value is left in the phone list. -/
theorem editPhone_invalid_new_mutates (r : PRecord) (old new : String)
    (hmem : old ∈ r.phones) (hinv : is_valid_phone new = false) :
    ∃ i, r.phones[i]? = some old ∧ old ∉ r.phones.take i ∧
      editPhoneRec r old new =
        ({ r with phones := r.phones.set i new }, some PErr.invalidPhoneFormat) ∧
      new ∈ (editPhoneRec r old new).1.phones := by
  obtain ⟨i, h1, h2, h3⟩ := replaceFirst_spec r.phones old new hmem
  have heq : editPhoneRec r old new =
      ({ r with phones := r.phones.set i new }, some PErr.invalidPhoneFormat) := by
    simp [editPhoneRec, h3, hinv]
  have hlt : i < r.phones.length := by
    by_contra hc
    rw [List.getElem?_eq_none (by omega)] at h1
    cases h1
  refine ⟨i, h1, h2, heq, ?_⟩
  rw [heq]
  exact List.mem_iff_getElem?.mpr ⟨i, List.getElem?_set_eq_of_lt new hlt⟩

/-- Claim C2, witness: replacing "1112223334" by the invalid "12". -/
theorem editPhone_invalid_new_mutates_witness :
    ∃ i, recEdit.phones[i]? = some "1112223334" ∧
      "1112223334" ∉ recEdit.phones.take i ∧
      editPhoneRec recEdit "1112223334" "12" =
        ({ recEdit with phones := recEdit.phones.set i "12" },
          some PErr.invalidPhoneFormat) ∧
      "12" ∈ (editPhoneRec recEdit "1112223334" "12").1.phones :=
  editPhone_invalid_new_mutates recEdit "1112223334" "12" (by decide) (by decide)

/-- Claim C8, counterexample: on a record that already holds the phone,
add-then-remove removes only the first copy, so `find_phone` still finds the
value afterwards; the claim as stated over every record is false. -/
theorem addRemoveFind_duplicate_cex :
    is_valid_phone "0123456789" = true ∧
    findPhoneRec ((removePhoneRec (addPhoneRec recDup "0123456789").1 "0123456789").1)
      "0123456789" = some "0123456789" := by
  constructor <;> rfl

/-- Claim C8, amended: for a record that does not already contain the valid
phone `v` (such as a new contact), `find_phone` finds `v` after `add_phone(v)`,
and finds nothing after a subsequent `remove_phone(v)`. -/
theorem addRemoveFind_roundtrip (r : PRecord) (v : String)
    (hval : is_valid_phone v = true) (hnot : v ∉ r.phones) :
    findPhoneRec (addPhoneRec r v).1 v = some v ∧
    findPhoneRec ((removePhoneRec (addPhoneRec r v).1 v).1) v = none := by
  have ha : (addPhoneRec r v).1 = { r with phones := r.phones ++ [v] } := by
    simp [addPhoneRec, hval]
  constructor
  · rw [ha]
    unfold findPhoneRec
    exact findFirst_eq_some _ v (by simp)
  · rw [ha]
    unfold removePhoneRec findPhoneRec
    simp [removeFirst_append r.phones v hnot, findFirst_eq_none r.phones v hnot]

/-- Claim C8, witness on a fresh record. -/
theorem addRemoveFind_roundtrip_witness :
    findPhoneRec (addPhoneRec recNew "0123456789").1 "0123456789" = some "0123456789" ∧
    findPhoneRec ((removePhoneRec (addPhoneRec recNew "0123456789").1 "0123456789").1)
      "0123456789" = none :=
  addRemoveFind_roundtrip recNew "0123456789" (by decide) (by decide)

/-! ## Claim theorems: notes -/

/-- Claim C6: `find_by_tag` returns exactly the notes having at least one tag
string-equal to `tag`, in insertion order, each listed once — it equals the
insertion-ordered filter of the note values by exact tag membership. -/
theorem findByTag_filter_spec (nb : NoteBook) (tag : String) :
    findByTag nb tag = (nb.map Prod.snd).filter (fun n => decide (tag ∈ n.tags)) := by
  induction nb with
  | nil => simp [findByTag]
  | cons p rest ih =>
    obtain ⟨k, n⟩ := p
    by_cases h : hasTag n.tags tag
    · have hm : tag ∈ n.tags := (hasTag_iff _ _).mp h
      simp [findByTag, h, ih, hm]
    · have hm : tag ∉ n.tags := fun hc => h ((hasTag_iff _ _).mpr hc)
      simp [findByTag, h, ih, hm]

/-- Claim C1, counterexample: after three `add_note` calls and `delete_note(2)`
the notebook holds ids {1, 3} and has size 2, so the fourth `add_note` assigns
id 2 + 1 = 3 — not 4.  Id 4 does not occur in the result; the existing note 3
is overwritten instead. -/
theorem addNote_after_delete_assigns_three_not_four :
    deleteNote nb3 2 = .ok nb13 ∧
    nb13.length + 1 = 3 ∧
    (addNote nb13 noteD).map Prod.fst = [1, 3] ∧
    dictFind (addNote nb13 noteD) 4 = none := by
  refine ⟨?_, ?_, ?_, ?_⟩ <;> rfl

/-- Claim C1, amended: `add_note` always assigns identifier `size + 1`; in the
scenario, the three adds produce ids [1, 2, 3], `delete_note(2)` leaves
{1, 3}, and the fourth `add_note` therefore assigns id 3, replacing the
existing note 3 and leaving the identifiers {1, 3}. -/
theorem addNote_id_eq_size_succ :
    (∀ (nb : NoteBook) (n : Note), dictFind (addNote nb n) (nb.length + 1) = some n) ∧
    nb3 = [(1, noteA), (2, noteB), (3, noteC)] ∧
    deleteNote nb3 2 = .ok nb13 ∧
    addNote nb13 noteD = [(1, noteA), (3, noteD)] := by
  refine ⟨fun nb n => ?_, rfl, rfl, rfl⟩
  unfold addNote
  exact dictFind_dictSet_self nb (nb.length + 1) n

/-! ## Claim theorems: the add command handler -/

/-- Claim C9: invoking the `add` handler with the name of an existing record
and a valid phone appends the phone to that record in place: the book's keys
are unchanged, the record keeps its old phones followed by the new one, every
other entry is untouched, and the handler reports success. -/
theorem addContact_existing_appends (book : AddressBook) (name phone : String)
    (r : PRecord) (hfind : dictFind book name = some r)
    (hval : is_valid_phone phone = true) :
    (addContact [name, phone] book).1 =
      dictSet book name { r with phones := r.phones ++ [phone] } ∧
    (addContact [name, phone] book).1.map Prod.fst = book.map Prod.fst ∧
    dictFind (addContact [name, phone] book).1 name =
      some { r with phones := r.phones ++ [phone] } ∧
    (∀ k, k ≠ name → dictFind (addContact [name, phone] book).1 k = dictFind book k) ∧
    (addContact [name, phone] book).2 = "Contact added." := by
  have hstep : addContact [name, phone] book =
      (dictSet book name { r with phones := r.phones ++ [phone] }, "Contact added.") := by
    simp [addContact, hval, hfind, addPhoneRec]
  rw [hstep]
  refine ⟨rfl, ?_, ?_, ?_, rfl⟩
  · exact dictSet_map_fst_of_find book name _ r hfind
  · exact dictFind_dictSet_self book name _
  · intro k hk
    exact dictFind_dictSet_ne book name k _ hk

/-- Claim C9, witness: adding a second phone to the existing contact Bob. -/
theorem addContact_existing_appends_witness :
    (addContact ["Bob", "1111111111"] bookBob).1 =
      dictSet bookBob "Bob" { recBob with phones := recBob.phones ++ ["1111111111"] } ∧
    (addContact ["Bob", "1111111111"] bookBob).1.map Prod.fst = bookBob.map Prod.fst ∧
    dictFind (addContact ["Bob", "1111111111"] bookBob).1 "Bob" =
      some { recBob with phones := recBob.phones ++ ["1111111111"] } ∧
    (∀ k, k ≠ "Bob" →
      dictFind (addContact ["Bob", "1111111111"] bookBob).1 k = dictFind bookBob k) ∧
    (addContact ["Bob", "1111111111"] bookBob).2 = "Contact added." :=
  addContact_existing_appends bookBob "Bob" "1111111111" recBob (by decide) (by decide)

/-! ## Birthday-format lemmas -/

theorem splitDots_ne_nil (cs : List Char) : splitDots cs ≠ [] := by
  cases cs with
  | nil => simp [splitDots]
  | cons c rest =>
    simp only [splitDots]
    cases h : splitDots rest with
    | nil => simp
    | cons g gs => by_cases hc : c = '.' <;> simp [hc]

theorem joinDots_cons_cons (c : Char) (g : List Char) (gs : List (List Char)) :
    joinDots ((c :: g) :: gs) = c :: joinDots (g :: gs) := by
  cases gs <;> simp [joinDots]

theorem joinDots_splitDots (cs : List Char) : joinDots (splitDots cs) = cs := by
  induction cs with
  | nil => rfl
  | cons c rest ih =>
    simp only [splitDots]
    cases h : splitDots rest with
    | nil => exact absurd h (splitDots_ne_nil rest)
    | cons g gs =>
      rw [h] at ih
      by_cases hc : c = '.'
      · subst hc
        simp [joinDots, ih]
      · simp [hc, joinDots_cons_cons, ih]


theorem splitDots_cons_eq (c : Char) (rest : List Char) {g0 : List Char}
    {gs : List (List Char)} (h : splitDots rest = g0 :: gs) :
    splitDots (c :: rest) = if c = '.' then [] :: g0 :: gs else (c :: g0) :: gs := by
  simp only [splitDots]
  rw [h]

theorem splitDots_no_dot (cs : List Char) : ∀ g ∈ splitDots cs, '.' ∉ g := by
  induction cs with
  | nil =>
    intro g hg
    simp [splitDots] at hg
    subst hg
    simp
  | cons c rest ih =>
    intro g hg
    cases h : splitDots rest with
    | nil => exact absurd h (splitDots_ne_nil rest)
    | cons g0 gs =>
      rw [splitDots_cons_eq c rest h] at hg
      by_cases hc : c = '.'
      · rw [if_pos hc] at hg
        rcases List.mem_cons.mp hg with h1 | h2
        · subst h1; simp
        · exact ih g (h ▸ h2)
      · rw [if_neg hc] at hg
        rcases List.mem_cons.mp hg with h1 | h2
        · subst h1
          intro hmem
          rcases List.mem_cons.mp hmem with hx | hx
          · exact hc hx.symm
          · exact ih g0 (h ▸ List.mem_cons_self g0 gs) hx
        · exact ih g (h ▸ List.mem_cons_of_mem g0 h2)

theorem splitDots_append (df rest : List Char) (h : '.' ∉ df) :
    splitDots (df ++ '.' :: rest) = df :: splitDots rest := by
  induction df with
  | nil =>
    rw [List.nil_append]
    cases hs : splitDots rest with
    | nil => exact absurd hs (splitDots_ne_nil rest)
    | cons g gs =>
      rw [splitDots_cons_eq '.' rest hs, if_pos rfl]
  | cons c df' ih =>
    have hc : c ≠ '.' := fun hcc => h (hcc ▸ List.mem_cons_self c df')
    have h' : '.' ∉ df' := fun hm => h (List.mem_cons_of_mem c hm)
    rw [List.cons_append, splitDots_cons_eq c _ (ih h'), if_neg hc]

theorem splitDots_single (yf : List Char) (h : '.' ∉ yf) : splitDots yf = [yf] := by
  induction yf with
  | nil => rfl
  | cons c t ih =>
    have hc : c ≠ '.' := fun hcc => h (hcc ▸ List.mem_cons_self c t)
    have h' : '.' ∉ t := fun hm => h (List.mem_cons_of_mem c hm)
    rw [splitDots_cons_eq c t (ih h'), if_neg hc]

theorem ndRangeBases_find?_ascii {c : Char} (h1 : 48 ≤ c.toNat) (h2 : c.toNat ≤ 57) :
    ndRangeBases.find? (fun b => decide (b ≤ c.toNat) && decide (c.toNat ≤ b + 9)) =
      some 48 := by
  unfold ndRangeBases
  apply List.find?_cons_of_pos
  simp only [Bool.and_eq_true, decide_eq_true_eq]
  omega

theorem digitVal_ascii {c : Char} (h1 : 48 ≤ c.toNat) (h2 : c.toNat ≤ 57) :
    digitVal c = c.toNat - 48 := by
  unfold digitVal
  rw [ndRangeBases_find?_ascii h1 h2]

theorem digitVal_le_nine (c : Char) : digitVal c ≤ 9 := by
  unfold digitVal
  cases h : ndRangeBases.find? (fun b => decide (b ≤ c.toNat) && decide (c.toNat ≤ b + 9)) with
  | none => exact Nat.zero_le 9
  | some b =>
    have hb := List.find?_some h
    simp only [Bool.and_eq_true, decide_eq_true_eq] at hb
    show c.toNat - b ≤ 9
    omega

theorem dayFieldVal_pos {df : List Char} {d : Nat} (h : dayFieldVal df = some d) :
    1 ≤ d := by
  match df with
  | [] => simp [dayFieldVal] at h
  | [c] =>
    simp only [dayFieldVal] at h
    split_ifs at h with hc
    injection h with hd
    rw [digitVal_ascii (by omega) hc.2] at hd
    omega
  | [c0, c1] =>
    simp only [dayFieldVal] at h
    split_ifs at h with h1 h2 h3
    · injection h with hd
      omega
    · injection h with hd
      rcases h2.1 with h0 | h0 <;> subst h0
      · rw [(by decide : digitVal '1' = 1)] at hd
        omega
      · rw [(by decide : digitVal '2' = 2)] at hd
        omega
    · injection h with hd
      rw [digitVal_ascii (by omega) h3.2.2] at hd
      omega
  | _ :: _ :: _ :: _ => simp [dayFieldVal] at h

theorem monthFieldVal_bounds {mf : List Char} {m : Nat} (h : monthFieldVal mf = some m) :
    1 ≤ m ∧ m ≤ 12 := by
  match mf with
  | [] => simp [monthFieldVal] at h
  | [c] =>
    simp only [monthFieldVal] at h
    split_ifs at h with hc
    injection h with hm
    rw [digitVal_ascii (by omega) hc.2] at hm
    omega
  | [c0, c1] =>
    simp only [monthFieldVal] at h
    split_ifs at h with h1 h2
    · injection h with hm
      rw [digitVal_ascii h1.2.1 (by omega)] at hm
      omega
    · injection h with hm
      rw [digitVal_ascii (by omega) h2.2.2] at hm
      omega
  | _ :: _ :: _ :: _ => simp [monthFieldVal] at h

theorem foldl_digitVal_lt (cs : List Char) (a : Nat) :
    List.foldl (fun a c => 10 * a + digitVal c) a cs < (a + 1) * 10 ^ cs.length := by
  induction cs generalizing a with
  | nil => simp
  | cons c t ih =>
    simp only [List.foldl_cons, List.length_cons]
    have h1 := ih (10 * a + digitVal c)
    have h2 := digitVal_le_nine c
    have h3 : (10 * a + digitVal c + 1) * 10 ^ t.length ≤ (a + 1) * 10 ^ (t.length + 1) := by
      rw [pow_succ]
      calc (10 * a + digitVal c + 1) * 10 ^ t.length
          ≤ ((a + 1) * 10) * 10 ^ t.length := Nat.mul_le_mul_right _ (by omega)
        _ = (a + 1) * (10 ^ t.length * 10) := by ring
    omega

theorem natOfDigits_lt (cs : List Char) : natOfDigits cs < 10 ^ cs.length := by
  simpa using foldl_digitVal_lt cs 0

theorem yearFieldVal_le {yf : List Char} {y : Nat} (h : yearFieldVal yf = some y) :
    y ≤ 9999 := by
  unfold yearFieldVal at h
  split_ifs at h with hc
  injection h with hy
  have hlt := natOfDigits_lt yf
  rw [hc.1] at hlt
  norm_num at hlt
  omega

theorem mkDate_isSome_iff (y m d : Nat) :
    (mkDate y m d).isSome = true ↔ validB ⟨y, m, d⟩ = true := by
  unfold mkDate
  by_cases h : validB ⟨y, m, d⟩ = true <;> simp [h]

/-! ## Claim theorems: birthday parsing -/

/-- Claim C4, counterexample: `strptime`'s `%d` directive accepts a one-digit
day, so "1.06.2024" parses successfully although it does not match the strict
two-digit-day, two-digit-month pattern the claim requires. -/
theorem parseBirthday_accepts_one_digit_day :
    (parse_birthday "1.06.2024").isSome = true ∧ strictDDMMYYYY "1.06.2024" = false := by
  constructor <;> rfl

/-- Claim C4, amended: `parse_birthday s` succeeds exactly when `s` is
day-field, dot, month-field, dot, year-field, where the day field is one or
two digit characters denoting a value 1-31 (the `%d` regex), the month field
one or two digit characters denoting 1-12 (the `%m` regex), the year field
exactly four digit characters, and the triple is a real calendar date with
year at least 1.  In particular "29.02.2024" (leap year) succeeds and
"29.02.2023" fails. -/
theorem parseBirthday_characterization :
    (∀ s : String, (parse_birthday s).isSome = true ↔
      ∃ df mf yf d m y,
        s.data = df ++ '.' :: (mf ++ '.' :: yf) ∧
        '.' ∉ df ∧ '.' ∉ mf ∧ '.' ∉ yf ∧
        dayFieldVal df = some d ∧ monthFieldVal mf = some m ∧
        yearFieldVal yf = some y ∧
        1 ≤ y ∧ d ≤ daysInMonthB (isLeapB y) m) ∧
    (parse_birthday "29.02.2024").isSome = true ∧
    parse_birthday "29.02.2023" = none := by
  refine ⟨fun s => ⟨?_, ?_⟩, rfl, rfl⟩
  · intro h
    unfold parse_birthday at h
    cases hsp : splitDots s.data with
    | nil => exact absurd hsp (splitDots_ne_nil s.data)
    | cons df t0 =>
      rw [hsp] at h
      rcases t0 with _ | ⟨mf, t1⟩
      · simp at h
      rcases t1 with _ | ⟨yf, t2⟩
      · simp at h
      rcases t2 with _ | ⟨z, t3⟩
      swap
      · simp at h
      have h' : (match dayFieldVal df, monthFieldVal mf, yearFieldVal yf with
          | some d, some m, some y => mkDate y m d
          | _, _, _ => none).isSome = true := h
      have hdata : s.data = df ++ '.' :: (mf ++ '.' :: yf) := by
        have hj := joinDots_splitDots s.data
        rw [hsp] at hj
        simpa [joinDots] using hj.symm
      have hno := splitDots_no_dot s.data
      rw [hsp] at hno
      cases hd : dayFieldVal df with
      | none => rw [hd] at h'; exact Bool.noConfusion h'
      | some d =>
        cases hm : monthFieldVal mf with
        | none => rw [hd, hm] at h'; exact Bool.noConfusion h'
        | some m =>
          cases hy : yearFieldVal yf with
          | none => rw [hd, hm, hy] at h'; exact Bool.noConfusion h'
          | some y =>
            rw [hd, hm, hy] at h'
            have h2 : (mkDate y m d).isSome = true := h'
            rw [mkDate_isSome_iff] at h2
            unfold validB at h2
            simp only [decide_eq_true_eq] at h2
            exact ⟨df, mf, yf, d, m, y, hdata, hno df (by simp), hno mf (by simp),
              hno yf (by simp), hd, hm, hy, h2.1, h2.2.2.2.2.2⟩
  · rintro ⟨df, mf, yf, d, m, y, hdata, hdf, hmf, hyf, hd, hm, hy, h1y, hdm⟩
    unfold parse_birthday
    rw [hdata, splitDots_append df _ hdf, splitDots_append mf _ hmf,
      splitDots_single yf hyf]
    show (match dayFieldVal df, monthFieldVal mf, yearFieldVal yf with
      | some d, some m, some y => mkDate y m d
      | _, _, _ => none).isSome = true
    rw [hd, hm, hy]
    show (mkDate y m d).isSome = true
    rw [mkDate_isSome_iff]
    unfold validB
    simp only [decide_eq_true_eq]
    obtain ⟨hm1, hm2⟩ := monthFieldVal_bounds hm
    exact ⟨h1y, yearFieldVal_le hy, hm1, hm2, dayFieldVal_pos hd, hdm⟩


/-! ## Date-arithmetic lemmas for the birthday window -/

theorem validB_iff (d : PyDate) :
    validB d = true ↔ (1 ≤ d.year ∧ d.year ≤ 9999 ∧ 1 ≤ d.month ∧ d.month ≤ 12 ∧
      1 ≤ d.day ∧ d.day ≤ daysInMonthB (isLeapB d.year) d.month) := by
  unfold validB
  exact decide_eq_true_iff

theorem bool_eq_false {b : Bool} (h : ¬b = true) : b = false := by
  cases b
  · rfl
  · exact absurd rfl h

set_option maxHeartbeats 1600000 in
theorem cumulativeDays_step (z : Nat) :
    cumulativeDays (z + 1) =
      cumulativeDays z + 365 + (if isLeapB (z + 1) = true then 1 else 0) := by
  have hiff : isLeapB (z + 1) = true ↔
      ((z + 1) % 4 = 0 ∧ ((z + 1) % 100 ≠ 0 ∨ (z + 1) % 400 = 0)) := by
    simp [isLeapB]
  by_cases hL : isLeapB (z + 1) = true
  · rw [if_pos hL]
    rw [hiff] at hL
    unfold cumulativeDays
    omega
  · rw [if_neg hL]
    rw [hiff] at hL
    unfold cumulativeDays
    omega

theorem cumulativeDays_mono {z1 z2 : Nat} (h : z1 ≤ z2) :
    cumulativeDays z1 ≤ cumulativeDays z2 := by
  induction z2 with
  | zero =>
    have hz : z1 = 0 := by omega
    subst hz
    exact Nat.le_refl _
  | succ n ih =>
    rcases Nat.lt_or_ge z1 (n + 1) with hlt | hge
    · have hle := ih (by omega)
      have hstep := cumulativeDays_step n
      have hbit : (0:Nat) ≤ if isLeapB (n + 1) = true then 1 else 0 := Nat.zero_le _
      omega
    · have hz : z1 = n + 1 := by omega
      subst hz
      exact Nat.le_refl _

theorem monthTotal (leap : Bool) : ∀ m : Nat, m < 13 →
    daysBeforeMonthB leap m + daysInMonthB leap m ≤
      365 + (if leap = true then 1 else 0) := by
  intro m hm
  have hall : (List.range 13).all (fun j => decide (daysBeforeMonthB leap j +
      daysInMonthB leap j ≤ 365 + (if leap = true then 1 else 0))) = true := by
    cases leap <;> rfl
  exact of_decide_eq_true (List.all_eq_true.mp hall m (List.mem_range.mpr hm))

theorem monthMono (leap : Bool) : ∀ m2 : Nat, m2 < 13 → ∀ m1, m1 < m2 →
    daysBeforeMonthB leap m1 + daysInMonthB leap m1 ≤ daysBeforeMonthB leap m2 := by
  intro m2 h2 m1 h1
  have hall : (List.range 13).all (fun j => (List.range j).all (fun i =>
      decide (daysBeforeMonthB leap i + daysInMonthB leap i ≤
        daysBeforeMonthB leap j))) = true := by
    cases leap <;> rfl
  have h3 := List.all_eq_true.mp hall m2 (List.mem_range.mpr h2)
  have h4 := List.all_eq_true.mp h3 m1 (List.mem_range.mpr h1)
  exact of_decide_eq_true h4

theorem toOrdinal_le_cumulative {a : PyDate} (ha : validB a = true) :
    toOrdinal a ≤ cumulativeDays a.year := by
  obtain ⟨h1, h2, h3, h4, h5, h6⟩ := (validB_iff a).mp ha
  have hm := monthTotal (isLeapB a.year) a.month (by omega)
  have hstep := cumulativeDays_step (a.year - 1)
  have hy : a.year - 1 + 1 = a.year := by omega
  rw [hy] at hstep
  unfold toOrdinal
  by_cases hL : isLeapB a.year = true
  · rw [if_pos hL] at hm hstep
    omega
  · rw [if_neg hL] at hm hstep
    omega

theorem toOrdinal_lt_of_lex (a b : PyDate) (ha : validB a = true) (hb : validB b = true)
    (h : ltDate a b = true) : toOrdinal a < toOrdinal b := by
  unfold ltDate at h
  replace h := of_decide_eq_true h
  have hA := (validB_iff a).mp ha
  have hB := (validB_iff b).mp hb
  rcases h with hy | ⟨hyeq, hm | ⟨hmeq, hd⟩⟩
  · have h1 : toOrdinal a ≤ cumulativeDays a.year := toOrdinal_le_cumulative ha
    have h2 : cumulativeDays a.year ≤ cumulativeDays (b.year - 1) :=
      cumulativeDays_mono (by omega)
    have h3 : cumulativeDays (b.year - 1) < toOrdinal b := by
      unfold toOrdinal
      have hb5 : 1 ≤ b.day := hB.2.2.2.2.1
      omega
    omega
  · unfold toOrdinal
    rw [hyeq]
    have hmono := monthMono (isLeapB b.year) b.month (by omega) a.month hm
    have hda : a.day ≤ daysInMonthB (isLeapB b.year) a.month := by
      have h6 := hA.2.2.2.2.2
      rw [hyeq] at h6
      exact h6
    have hdb : 1 ≤ b.day := hB.2.2.2.2.1
    omega
  · unfold toOrdinal
    rw [hyeq, hmeq]
    omega

theorem ltDate_asymm_eq (a b : PyDate) (h1 : ltDate a b = false)
    (h2 : ltDate b a = false) : a = b := by
  unfold ltDate at h1 h2
  have g1 := of_decide_eq_false h1
  have g2 := of_decide_eq_false h2
  obtain ⟨y1, m1, d1⟩ := a
  obtain ⟨y2, m2, d2⟩ := b
  simp only at g1 g2
  simp only [PyDate.mk.injEq]
  omega

theorem toOrdinal_today_le_adjusted (today b : PyDate) (htoday : validB today = true)
    (hb : validB b = true) (hyr : today.year + 1 ≤ 9999)
    (hd1 : b.day ≤ daysInMonthB (isLeapB today.year) b.month)
    (hd2 : b.day ≤ daysInMonthB (isLeapB (today.year + 1)) b.month) :
    toOrdinal today ≤ toOrdinal (adjustedDate today b) := by
  have hT := (validB_iff today).mp htoday
  have hB := (validB_iff b).mp hb
  unfold adjustedDate
  by_cases hlt : ltDate ⟨today.year, b.month, b.day⟩ today = true
  · rw [if_pos hlt]
    have hv : validB ⟨today.year + 1, b.month, b.day⟩ = true := by
      rw [validB_iff]
      dsimp only
      exact ⟨by omega, hyr, hB.2.2.1, hB.2.2.2.1, hB.2.2.2.2.1, hd2⟩
    have hlex : ltDate today ⟨today.year + 1, b.month, b.day⟩ = true := by
      unfold ltDate
      exact decide_eq_true (Or.inl (Nat.lt_succ_self today.year))
    exact le_of_lt (toOrdinal_lt_of_lex today _ htoday hv hlex)
  · rw [if_neg hlt]
    have hv : validB ⟨today.year, b.month, b.day⟩ = true := by
      rw [validB_iff]
      dsimp only
      exact ⟨hT.1, hT.2.1, hB.2.2.1, hB.2.2.2.1, hB.2.2.2.2.1, hd1⟩
    by_cases hlt2 : ltDate today ⟨today.year, b.month, b.day⟩ = true
    · exact le_of_lt (toOrdinal_lt_of_lex today _ htoday hv hlt2)
    · have heq := ltDate_asymm_eq today ⟨today.year, b.month, b.day⟩
        (bool_eq_false hlt2) (bool_eq_false hlt)
      rw [← heq]

/-! ## The birthday-window loop against its membership specification -/

theorem upcomingEntry_none {r : PRecord} (today : PyDate) (days : Int)
    (h : r.birthday = none) : upcomingEntry today days r = none := by
  unfold upcomingEntry
  rw [h]

theorem upcomingEntry_some {r : PRecord} {b : PyDate} (today : PyDate) (days : Int)
    (h : r.birthday = some b) :
    upcomingEntry today days r =
      if keepB today days b then some (r.name, adjustedDate today b) else none := by
  unfold upcomingEntry
  rw [h]

theorem birthdayOK_some {r : PRecord} {b : PyDate} (today : PyDate)
    (h : r.birthday = some b) :
    birthdayOK today r =
      (validB b && decide (b.day ≤ daysInMonthB (isLeapB today.year) b.month) &&
        decide (b.day ≤ daysInMonthB (isLeapB (today.year + 1)) b.month)) := by
  unfold birthdayOK
  rw [h]

theorem upcoming_step_final (today : PyDate) (days : Int) (r : PRecord) (b : PyDate)
    (rest : List PRecord) (hb : r.birthday = some b)
    (hge : toOrdinal today ≤ toOrdinal (adjustedDate today b)) :
    (if deltaDays (adjustedDate today b) today < days
       then some ((r.name, adjustedDate today b) ::
         List.filterMap (upcomingEntry today days) rest)
       else some (List.filterMap (upcomingEntry today days) rest))
      = some (List.filterMap (upcomingEntry today days) (r :: rest)) := by
  by_cases hk : deltaDays (adjustedDate today b) today < days
  · rw [if_pos hk]
    have hkeep : keepB today days b = true := by
      unfold keepB
      apply decide_eq_true
      refine ⟨?_, hk⟩
      unfold deltaDays
      omega
    have hfr : upcomingEntry today days r = some (r.name, adjustedDate today b) := by
      rw [upcomingEntry_some today days hb, if_pos hkeep]
    rw [List.filterMap_cons_some hfr]
  · rw [if_neg hk]
    have hkeep : ¬keepB today days b = true := by
      intro hcon
      unfold keepB at hcon
      exact hk (of_decide_eq_true hcon).2
    have hfr : upcomingEntry today days r = none := by
      rw [upcomingEntry_some today days hb, if_neg hkeep]
    rw [List.filterMap_cons_none hfr]

theorem upcomingLoop_spec (records : List PRecord) (today : PyDate) (days : Int)
    (htoday : validB today = true) (hyr : today.year + 1 ≤ 9999)
    (hrec : ∀ r ∈ records, birthdayOK today r = true) :
    upcomingLoop records today days =
      some (records.filterMap (upcomingEntry today days)) := by
  induction records with
  | nil => rfl
  | cons r rest ih =>
    have hr := hrec r (List.mem_cons_self r rest)
    have hrest : ∀ x ∈ rest, birthdayOK today x = true :=
      fun x hx => hrec x (List.mem_cons_of_mem r hx)
    have ihr := ih hrest
    cases hb : r.birthday with
    | none =>
      unfold upcomingLoop
      rw [hb]
      simp only []
      rw [ihr, List.filterMap_cons_none (upcomingEntry_none today days hb)]
    | some b =>
      rw [birthdayOK_some today hb] at hr
      simp only [Bool.and_eq_true, decide_eq_true_eq] at hr
      obtain ⟨⟨hb1, hd1⟩, hd2⟩ := hr
      have hT := (validB_iff today).mp htoday
      have hB := (validB_iff b).mp hb1
      have hv1 : validB ⟨today.year, b.month, b.day⟩ = true := by
        rw [validB_iff]
        dsimp only
        exact ⟨hT.1, hT.2.1, hB.2.2.1, hB.2.2.2.1, hB.2.2.2.2.1, hd1⟩
      have hv2 : validB ⟨today.year + 1, b.month, b.day⟩ = true := by
        rw [validB_iff]
        dsimp only
        exact ⟨by omega, hyr, hB.2.2.1, hB.2.2.2.1, hB.2.2.2.2.1, hd2⟩
      have hmk1 : mkDate today.year b.month b.day =
          some ⟨today.year, b.month, b.day⟩ := by
        unfold mkDate
        rw [if_pos hv1]
      have hmk2 : mkDate (today.year + 1) b.month b.day =
          some ⟨today.year + 1, b.month, b.day⟩ := by
        unfold mkDate
        rw [if_pos hv2]
      have hge : toOrdinal today ≤ toOrdinal (adjustedDate today b) :=
        toOrdinal_today_le_adjusted today b htoday hb1 hyr hd1 hd2
      unfold upcomingLoop
      rw [hb]
      simp only []
      rw [hmk1]
      simp only []
      by_cases hlt : ltDate ⟨today.year, b.month, b.day⟩ today = true
      · have hadj : adjustedDate today b = ⟨today.year + 1, b.month, b.day⟩ := by
          unfold adjustedDate
          rw [if_pos hlt]
        rw [if_pos hlt, hmk2, ihr]
        simp only []
        rw [← hadj]
        exact upcoming_step_final today days r b rest hb hge
      · have hadj : adjustedDate today b = ⟨today.year, b.month, b.day⟩ := by
          unfold adjustedDate
          rw [if_neg hlt]
        rw [if_neg hlt, ihr]
        simp only []
        rw [← hadj]
        exact upcoming_step_final today days r b rest hb hge

/-! ## Claim theorems: the birthday window -/

/-- Claim C3, counterexample: a record with birthday 29.02.2000 and "today"
01.06.2023 (a non-leap year).  `birthday.replace(year=2023)` raises
`ValueError`, which `get_upcoming_birthdays` does not catch, so no list is
returned at all — contradicting the claim that every record with a birthday
is considered and a list in insertion order is returned for every today and
window. -/
theorem upcomingBirthdays_feb29_none :
    getUpcomingBirthdays [("Feb", recFeb)] ⟨2023, 6, 1⟩ 400 = none := by
  rfl

/-- Claim C3, amended: whenever today is a valid date with `year + 1 ≤ 9999`
and every stored birthday is a valid date whose month/day exists both in
today's year and in the next one (in particular, no 29 February birthday when
the relevant year is non-leap), `get_upcoming_birthdays` returns, in record
insertion order, exactly the records whose birthday — taken in the current
year and rolled to the next year when already passed — has a day delta from
today in `[0, window_days)`, paired with that adjusted date.  Outside that
premise the underlying `date.replace` raises an uncaught `ValueError` and no
list is produced. -/
theorem upcomingBirthdays_window_spec (book : AddressBook) (today : PyDate)
    (days : Int) (htoday : validB today = true) (hyr : today.year + 1 ≤ 9999)
    (hrec : ∀ r ∈ book.map Prod.snd, birthdayOK today r = true) :
    getUpcomingBirthdays book today days =
      some ((book.map Prod.snd).filterMap (upcomingEntry today days)) :=
  upcomingLoop_spec (book.map Prod.snd) today days htoday hyr hrec

/-- Claim C3, witness: the spec example — birthday 15.06.1990, window 7.
With today 10.06.2024 the record is kept with date 15.06.2024 (delta 5);
with today 16.06.2024 the date rolls to 15.06.2025 (delta 364) and the
record is dropped. -/
theorem upcomingBirthdays_window_spec_witness :
    getUpcomingBirthdays bookJune ⟨2024, 6, 10⟩ 7 = some [("X", ⟨2024, 6, 15⟩)] ∧
    getUpcomingBirthdays bookJune ⟨2024, 6, 16⟩ 7 = some [] :=
  ⟨(upcomingBirthdays_window_spec bookJune ⟨2024, 6, 10⟩ 7 (by decide) (by decide)
      (by decide)).trans (by rfl),
   (upcomingBirthdays_window_spec bookJune ⟨2024, 6, 16⟩ 7 (by decide) (by decide)
      (by decide)).trans (by rfl)⟩

end Assistant
